import Mathlib

/-!
Verification development for the nvs-bench image-build recipe
(src/nvs-bench/image.py) and the declarative build-layer cache and
composition engine its specification describes.

The repository source under src/ is a single client script: it declares a
base image, environment variables, shell commands, a working directory and
an external volume, and hands them to a remote image-building service.
The engine that turns such an ordered step list into a cached, layered
execution environment is not part of the repository; the definitions in
the first half of this file are therefore modelled from the specification
prose (each such definition says so in its doc comment).  The second half
embeds the literal content of src/nvs-bench/image.py.
-/

/-! ### Steps and recipes -/

/-- Modelled from the spec: one atomic build instruction.  The engine that
consumes these steps is not part of the repository sources; the variants
follow the data model of the spec (SetEnv, RunCommand with optional
required resource and optional working-directory override, SetWorkdir,
DeclareMount). -/
inductive Step
  | setEnv (bindings : List (String × String))
  | runCommand (cmd : String) (resource : Option String) (wdOverride : Option String)
  | setWorkdir (path : String)
  | declareMount (mountPoint : String) (volume : String)
  deriving DecidableEq

/-- Modelled from the spec: an ordered sequence of steps plus a base image
reference (an opaque external identity string). -/
structure BuildRecipe where
  baseImage : String
  steps : List Step
  deriving DecidableEq

/-! ### Normalization of step content

The spec requires a stable ordering of environment-variable bindings
before hashing.  Lexicographic comparison is done with a structurally
recursive Bool-valued function so that concrete instances evaluate inside
the kernel. -/

/-- Lexicographic less-or-equal on character lists, comparing code points. -/
def listLeB : List Char → List Char → Bool
  | [], _ => true
  | _ :: _, [] => false
  | a :: as, b :: bs =>
    if a.toNat < b.toNat then true
    else if b.toNat < a.toNat then false
    else listLeB as bs

/-- Lexicographic less-or-equal on environment bindings: compare the
variable name first, then the value. -/
def pairLeB (x y : String × String) : Bool :=
  if x.1.data = y.1.data then listLeB x.2.data y.2.data
  else listLeB x.1.data y.1.data

/-- The ordering on bindings used to normalize SetEnv content, as a
proposition. -/
def envLe (x y : String × String) : Prop := pairLeB x y = true

instance : DecidableRel envLe := fun x y => inferInstanceAs (Decidable (pairLeB x y = true))

/-- Modelled from the spec: stable ordering of environment-variable
bindings (sort by name, then value) applied before hashing a SetEnv
step. -/
def normBindings (bs : List (String × String)) : List (String × String) :=
  bs.insertionSort envLe

/-- Modelled from the spec: the normalized content of a step, the part of
a step that is hashed.  Only SetEnv content is reordered; command steps
keep their exact string together with the declared resource requirement
and working-directory override. -/
inductive NormStep
  | env (bindings : List (String × String))
  | run (cmd : String) (resource : Option String) (wdOverride : Option String)
  | workdir (path : String)
  | mount (mountPoint : String) (volume : String)
  deriving DecidableEq

/-- Modelled from the spec: normalization of step content before hashing.
SetEnv bindings are put in a stable order; every other step kind is kept
exactly as written. -/
def normStep : Step → NormStep
  | .setEnv bs => .env (normBindings bs)
  | .runCommand c r w => .run c r w
  | .setWorkdir p => .workdir p
  | .declareMount p v => .mount p v

/-! ### Fingerprints -/

/-- Modelled from the spec: a content-addressed identity for a step.  The
spec treats the hash as collision free (fingerprints are identities), so
the model uses the free construction: a fingerprint is the base-image
seed or a node made of the parent fingerprint and the normalized step
content.  Constructor injectivity is the collision-freedom assumption. -/
inductive Fingerprint
  | base (image : String)
  | node (parent : Fingerprint) (content : NormStep)
  deriving DecidableEq

/-- Modelled from the spec: the fingerprint engine, a pure deterministic
function of the parent fingerprint and the normalized step content. -/
def fingerprint (parent : Fingerprint) (s : Step) : Fingerprint :=
  .node parent (normStep s)

/-- Modelled from the spec: the compiler walk that threads the running
parent fingerprint through the step list in declared order, pairing every
step with its fingerprint. -/
def fingerprintSteps : Fingerprint → List Step → List (Step × Fingerprint)
  | _, [] => []
  | parent, s :: rest =>
    let f := fingerprint parent s
    (s, f) :: fingerprintSteps f rest

/-- The fingerprints assigned to a step list, in order. -/
def fpList : Fingerprint → List Step → List Fingerprint
  | _, [] => []
  | parent, s :: rest =>
    let f := fingerprint parent s
    f :: fpList f rest

/-- The running parent fingerprint after a list of steps. -/
def chainFp (parent : Fingerprint) (steps : List Step) : Fingerprint :=
  steps.foldl fingerprint parent

/-! ### Validation and compilation -/

/-- Modelled from the spec: errors for malformed recipes, surfaced before
any fingerprinting or execution (empty recipe, mount declaration
referencing an undefined external volume, malformed step such as an empty
command string). -/
inductive ValidationError
  | emptyRecipe
  | undefinedMount (mountPoint : String) (volume : String)
  | emptyCommand
  deriving DecidableEq

/-- Modelled from the spec: the static check of a single step: an empty
command string is malformed, and a mount declaration must reference a
defined external volume. -/
def stepIssue (vols : List String) : Step → Option ValidationError
  | .runCommand c _ _ => if c = "" then some .emptyCommand else none
  | .declareMount p v => if v ∈ vols then none else some (.undefinedMount p v)
  | _ => none

/-- First static issue found in a step list, scanning in order. -/
def findIssue (vols : List String) : List Step → Option ValidationError
  | [] => none
  | s :: rest =>
    match stepIssue vols s with
    | some e => some e
    | none => findIssue vols rest

/-- Modelled from the spec: recipe validation, performed before
fingerprinting.  Fails on an empty recipe and on any malformed step. -/
def validate (vols : List String) (r : BuildRecipe) : Option ValidationError :=
  if r.steps = [] then some .emptyRecipe else findIssue vols r.steps

/-- Modelled from the spec: the build graph compiler.  Validation comes
first; only a recipe that passes is fingerprinted into a plan of
(step, fingerprint) pairs in declared order. -/
def compile (vols : List String) (r : BuildRecipe) :
    Except ValidationError (List (Step × Fingerprint)) :=
  match validate vols r with
  | some e => .error e
  | none => .ok (fingerprintSteps (.base r.baseImage) r.steps)

/-! ### The layer cache -/

/-- Modelled from the spec: a materialized layer, content-addressed by the
fingerprint of the step that produced it, owning a reference to its
parent. -/
structure Layer where
  fp : Fingerprint
  parent : Option Fingerprint
  content : String
  deriving DecidableEq

/-- The layer cache: an association of fingerprints to layers. -/
abbrev Cache := List (Fingerprint × Layer)

/-- Cache lookup by fingerprint. -/
def lookupLayer : Cache → Fingerprint → Option Layer
  | [], _ => none
  | (g, l) :: rest, f => if g = f then some l else lookupLayer rest f

/-- Modelled from the spec: idempotent commit, mirroring
create-if-missing volume semantics.  A commit for an already stored
fingerprint is a no-op returning the existing layer; the Bool reports
whether the underlying materialization work was performed. -/
def commit (cache : Cache) (f : Fingerprint) (l : Layer) : Cache × Layer × Bool :=
  match lookupLayer cache f with
  | some l0 => (cache, l0, false)
  | none => ((f, l) :: cache, l, true)

/-- How many entries a cache stores under a fingerprint. -/
def countFp (f : Fingerprint) (cache : Cache) : Nat :=
  cache.countP (fun p => decide (p.1 = f))

/-! ### Execution -/

/-- Modelled from the spec: the outcome the execution context reports for
one materialized step: success with a filesystem delta, a non-zero exit
code, or an unavailable declared resource. -/
inductive StepResult
  | success (delta : String)
  | nonZeroExit (code : Nat)
  | resourceUnavailable
  deriving DecidableEq

/-- Modelled from the spec: the observable states of a single build. -/
inductive BuildState
  | pending
  | compiling
  | executing (i : Nat)
  | failedCompile
  | failedExec (i : Nat)
  | succeeded
  deriving DecidableEq

/-- A state from which the spec allows no further transition. -/
def isTerminal : BuildState → Bool
  | .succeeded => true
  | .failedExec _ => true
  | .failedCompile => true
  | _ => false

/-- The transitions the spec allows for a single build. -/
def allowedEdge : BuildState → BuildState → Prop
  | .pending, .compiling => True
  | .compiling, .executing i => i = 0
  | .compiling, .failedCompile => True
  | .executing i, .executing j => j = i + 1
  | .executing i, .failedExec j => j = i
  | .executing _, .succeeded => True
  | _, _ => False

/-- Everything one run of a plan produces: the final cache, the indices of
the steps that were actually executed (cache misses), the state trace, and
either the failing step (index and step) or the final layer fingerprint. -/
structure RunOut where
  cache : Cache
  executed : List Nat
  trace : List BuildState
  result : Except (Nat × Step) Fingerprint

/-- Modelled from the spec: the execution coordinator.  Entries run in
declared order; a cache hit advances without side effects, a miss
materializes the step against the execution context and commits the new
layer, and a failure aborts the remainder of the plan without committing
a layer for the failing step. -/
def runSteps (ctx : Step → StepResult) :
    Cache → Fingerprint → Nat → List (Step × Fingerprint) → RunOut
  | cache, cur, _, [] => ⟨cache, [], [.succeeded], .ok cur⟩
  | cache, cur, i, (s, f) :: rest =>
    match lookupLayer cache f with
    | some _ =>
      let o := runSteps ctx cache f (i + 1) rest
      ⟨o.cache, o.executed, .executing i :: o.trace, o.result⟩
    | none =>
      match ctx s with
      | .success delta =>
        let o := runSteps ctx (commit cache f ⟨f, some cur, delta⟩).1 f (i + 1) rest
        ⟨o.cache, i :: o.executed, .executing i :: o.trace, o.result⟩
      | .nonZeroExit _ => ⟨cache, [i], [.executing i, .failedExec i], .error (i, s)⟩
      | .resourceUnavailable => ⟨cache, [i], [.executing i, .failedExec i], .error (i, s)⟩

/-- The fingerprint of the last plan entry, or the starting fingerprint
for an empty plan. -/
def lastFp (cur : Fingerprint) (es : List (Step × Fingerprint)) : Fingerprint :=
  es.foldl (fun _ e => e.2) cur

/-- A whole-build error: either validation rejected the recipe or a step
failed during execution. -/
inductive BuildError
  | validation (e : ValidationError)
  | execution (idx : Nat) (failingStep : Step)
  deriving DecidableEq

/-- Everything one build invocation produces. -/
structure BuildOut where
  trace : List BuildState
  executed : List Nat
  cache : Cache
  result : Except BuildError Fingerprint

/-- Modelled from the spec: a whole build run from a fresh cache: compile,
then execute.  A validation failure means the build never starts: nothing
executes and the trace stops at the compiling state. -/
def build (vols : List String) (ctx : Step → StepResult) (r : BuildRecipe) : BuildOut :=
  match compile vols r with
  | .error e => ⟨[.pending, .compiling, .failedCompile], [], [], .error (.validation e)⟩
  | .ok plan =>
    let o := runSteps ctx [] (.base r.baseImage) 0 plan
    ⟨.pending :: .compiling :: o.trace, o.executed, o.cache,
      o.result.mapError (fun p => .execution p.1 p.2)⟩

/-! ### Concurrent cache model

Modelled from the spec: the layer cache serializes commits per
fingerprint.  A fingerprint slot is free, claimed by one builder, or
committed; concurrent builds interleave atomic cache actions.  A builder
that finds a slot claimed by another builder can only wait (the internal
contention case), and a committed slot can only be reused. -/

/-- State of one fingerprint slot in the shared cache. -/
inductive SlotState
  | free
  | claimed (b : Nat)
  | committed (layerId : Nat)
  deriving DecidableEq

/-- The shared cache state: fingerprint slots (absent means free). -/
abbrev CacheSt := List (Fingerprint × SlotState)

/-- The state of the slot for a fingerprint. -/
def slotOf : CacheSt → Fingerprint → SlotState
  | [], _ => .free
  | (g, st) :: rest, f => if g = f then st else slotOf rest f

/-- Replace (or create) the slot for a fingerprint. -/
def setSlot : CacheSt → Fingerprint → SlotState → CacheSt
  | [], f, st => [(f, st)]
  | (g, old) :: rest, f, st =>
    if g = f then (f, st) :: rest else (g, old) :: setSlot rest f st

/-- An atomic action of one concurrent builder against the shared cache. -/
inductive CAct
  | acquire (b : Nat) (f : Fingerprint)
  | commitLayer (b : Nat) (f : Fingerprint) (layerId : Nat)
  | reuse (b : Nat) (f : Fingerprint)
  | wait (b : Nat) (f : Fingerprint)
  deriving DecidableEq

/-- Modelled from the spec: one serialized cache action.  acquire takes a
free slot (first writer wins); commitLayer is allowed only for the
claiming builder; reuse is allowed only on a committed slot; wait is the
transparent retry of the internal contention case, allowed only while
another builder holds the claim, and it changes nothing. -/
def cstep (st : CacheSt) : CAct → Option CacheSt
  | .acquire b f =>
    match slotOf st f with
    | .free => some (setSlot st f (.claimed b))
    | _ => none
  | .commitLayer b f lid =>
    match slotOf st f with
    | .claimed c => if c = b then some (setSlot st f (.committed lid)) else none
    | _ => none
  | .reuse _ f =>
    match slotOf st f with
    | .committed _ => some st
    | _ => none
  | .wait b f =>
    match slotOf st f with
    | .claimed c => if c = b then none else some st
    | _ => none

/-- Run a list of cache actions; none if any action is not allowed. -/
def crun (st : CacheSt) : List CAct → Option CacheSt
  | [] => some st
  | a :: rest =>
    match cstep st a with
    | some st2 => crun st2 rest
    | none => none

/-- How many times a trace of actions materializes (commits) a layer for a
fingerprint. -/
def buildCount (acts : List CAct) (f : Fingerprint) : Nat :=
  acts.countP (fun a =>
    match a with
    | .commitLayer _ g _ => decide (g = f)
    | _ => false)

/-! ### The source script (src/nvs-bench/image.py)

The second half of the data model is the literal content of the
repository file: the guard on the invoking directory, the external volume
with create-if-missing semantics, and the chained image configuration. -/

/-- The base image reference of image.py line 31 (the add_python argument
selects python 3.12 on top of it). -/
def baseImageRef : String := "nvidia/cuda:12.8.0-devel-ubuntu24.04"

/-- The fixed VCPKG_ROOT value set at image.py line 102. -/
def vcpkgRootValue : String := "/root/LichtFeld-Studio/vcpkg"

/-- The working directory set at image.py line 75: "/root/" followed by
the basename of the invoking directory. -/
def imageWorkdir (method_name : String) : String := "/root/" ++ method_name

/-- Where the vcpkg checkout of image.py line 100 lands: the clone runs
in the working directory of the image, so the checkout is the working
directory followed by "/vcpkg". -/
def vcpkgClonePath (method_name : String) : String :=
  imageWorkdir method_name ++ "/vcpkg"

/-- The ordered configuration steps of the image chain of image.py lines
30 to 123, as engine steps.  Shell strings that the python source spreads
over several lines with backslash continuations are flattened to single
strings here. -/
def imageSteps (method_name : String) : List Step :=
  [ .setEnv
      [ ("TORCH_CUDA_ARCH_LIST", "7.5;8.0;8.9;9.0"),
        ("DEBIAN_FRONTEND", "noninteractive"),
        ("TZ", "America/New_York") ],
    .runCommand "apt-get update && apt-get install -y openssh-server git wget unzip build-essential ninja-build libglew-dev libassimp-dev libboost-all-dev libgtk-3-dev libopencv-dev libglfw3-dev libavdevice-dev libavcodec-dev libeigen3-dev libtbb-dev libopenexr-dev libxi-dev libxrandr-dev libxxf86vm-dev libxxf86dga-dev libxxf86vm-dev" none none,
    .runCommand "apt-get install -y apt-transport-https ca-certificates gnupg curl" none none,
    .runCommand "echo \"deb [signed-by=/usr/share/keyrings/cloud.google.gpg] https://packages.cloud.google.com/apt cloud-sdk main\" | tee -a /etc/apt/sources.list.d/google-cloud-sdk.list && curl https://packages.cloud.google.com/apt/doc/apt-key.gpg | gpg --dearmor -o /usr/share/keyrings/cloud.google.gpg && apt-get update -y && apt-get install google-cloud-cli -y" none none,
    .runCommand "pip config set global.break-system-packages true" none none,
    .runCommand "pip install gpu_tracker" none none,
    .setWorkdir (imageWorkdir method_name),
    .runCommand "apt-get install -y build-essential libmpfr-dev libgmp3-dev libmpc-dev" none none,
    .runCommand "apt-get install -y gcc-14 g++-14 gfortran-14" none none,
    .runCommand "update-alternatives --install /usr/bin/gcc gcc /usr/bin/gcc-14 60" none none,
    .runCommand "update-alternatives --install /usr/bin/g++ g++ /usr/bin/g++-14 60" none none,
    .runCommand "update-alternatives --config gcc" none none,
    .runCommand "update-alternatives --config g++" none none,
    .runCommand "git clone https://github.com/N-Demir/LichtFeld-Studio.git --recursive ." none none,
    .runCommand "apt-get install -y curl zip tar" none none,
    .runCommand "git clone https://github.com/microsoft/vcpkg.git" none none,
    .runCommand "cd vcpkg && ./bootstrap-vcpkg.sh -disableMetrics && cd .." none none,
    .setEnv [("VCPKG_ROOT", vcpkgRootValue)],
    .runCommand "wget https://download.pytorch.org/libtorch/cu128/libtorch-cxx11-abi-shared-with-deps-2.7.1%2Bcu128.zip &&         unzip libtorch-cxx11-abi-shared-with-deps-2.7.1+cu128.zip -d external/ &&         rm libtorch-cxx11-abi-shared-with-deps-2.7.1+cu128.zip" none none,
    .runCommand "wget https://github.com/Kitware/CMake/releases/download/v4.0.3/cmake-4.0.3-linux-x86_64.sh &&         chmod +x cmake-4.0.3-linux-x86_64.sh &&         ./cmake-4.0.3-linux-x86_64.sh --skip-license --prefix=/usr/local &&         rm cmake-4.0.3-linux-x86_64.sh" none none,
    .runCommand "cmake -B build -DCMAKE_BUILD_TYPE=Release -G Ninja -DCMAKE_CXX_FLAGS=\x27-march=x86-64 -mtune=generic\x27" none none,
    .runCommand "cmake --build build -- -j$(nproc)" none none ]

/-- What one invocation of image.py observably does at module load: the
assertion message if the guard fires, the external volumes resolved with
create-if-missing semantics, the volume mount table, and the declared
image recipe. -/
structure ScriptOut where
  assertionFailure : Option String
  volumesResolved : List String
  mounts : List (String × String)
  recipe : Option BuildRecipe
  deriving DecidableEq

/-- The module-level behavior of src/nvs-bench/image.py as a function of
the basename of the current working directory (image.py line 19).  The
assert at lines 20-22 fires when the basename is "nvs-bench", before the
volume resolution at line 24 and before the image chain at lines 30-123
declares anything. -/
def scriptRun (cwdName : String) : ScriptOut :=
  let method_name := cwdName
  if method_name = "nvs-bench" then
    ⟨some "nvs-bench must be called from the method\x27s directory, not the nvs-bench subdirectory. Eg: `modal run nvs-bench/image.py`.",
      [], [], none⟩
  else
    ⟨none, ["nvs-bench"], [("/nvs-bench", "nvs-bench")],
      some ⟨baseImageRef, imageSteps method_name⟩⟩

/-! ### Properties of the binding order -/

/-- Characters with equal code points are equal. -/
theorem char_eq_of_toNat_eq {a b : Char} (h : a.toNat = b.toNat) : a = b := by
  apply Char.ext
  apply UInt32.ext
  exact h

/-- The lexicographic order on character lists is total. -/
theorem listLeB_total (x : List Char) : ∀ y, listLeB x y = true ∨ listLeB y x = true := by
  induction x with
  | nil => intro y; left; rfl
  | cons a as ih =>
    intro y
    cases y with
    | nil => right; rfl
    | cons b bs =>
      by_cases h1 : a.toNat < b.toNat
      · left; simp [listLeB, h1]
      · by_cases h2 : b.toNat < a.toNat
        · right; simp [listLeB, h1, h2]
        · rcases ih bs with h | h
          · left; simp [listLeB, h1, h2, h]
          · right; simp [listLeB, h1, h2, h]

/-- The lexicographic order on character lists is antisymmetric. -/
theorem listLeB_antisymm :
    ∀ {x y : List Char}, listLeB x y = true → listLeB y x = true → x = y := by
  intro x
  induction x with
  | nil =>
    intro y hxy hyx
    cases y with
    | nil => rfl
    | cons b bs => simp [listLeB] at hyx
  | cons a as ih =>
    intro y hxy hyx
    cases y with
    | nil => simp [listLeB] at hxy
    | cons b bs =>
      by_cases h1 : a.toNat < b.toNat
      · have h2 : ¬ b.toNat < a.toNat := by omega
        simp [listLeB, h1, h2] at hyx
      · by_cases h2 : b.toNat < a.toNat
        · simp [listLeB, h1, h2] at hxy
        · have hab : a = b := char_eq_of_toNat_eq (by omega)
          simp [listLeB, h1, h2] at hxy hyx
          rw [hab, ih hxy hyx]

/-- The lexicographic order on character lists is transitive. -/
theorem listLeB_trans :
    ∀ {x y z : List Char},
      listLeB x y = true → listLeB y z = true → listLeB x z = true := by
  intro x
  induction x with
  | nil => intro y z hxy hyz; rfl
  | cons a as ih =>
    intro y z hxy hyz
    cases y with
    | nil => simp [listLeB] at hxy
    | cons b bs =>
      cases z with
      | nil => simp [listLeB] at hyz
      | cons c cs =>
        by_cases hab : a.toNat < b.toNat
        · by_cases hbc : b.toNat < c.toNat
          · simp [listLeB, show a.toNat < c.toNat by omega]
          · by_cases hcb : c.toNat < b.toNat
            · simp [listLeB, hbc, hcb] at hyz
            · simp [listLeB, show a.toNat < c.toNat by omega]
        · by_cases hba : b.toNat < a.toNat
          · simp [listLeB, hab, hba] at hxy
          · by_cases hbc : b.toNat < c.toNat
            · simp [listLeB, show a.toNat < c.toNat by omega]
            · by_cases hcb : c.toNat < b.toNat
              · simp [listLeB, hbc, hcb] at hyz
              · have hac1 : ¬ a.toNat < c.toNat := by omega
                have hac2 : ¬ c.toNat < a.toNat := by omega
                simp [listLeB, hab, hba] at hxy
                simp [listLeB, hbc, hcb] at hyz
                simp [listLeB, hac1, hac2]
                exact ih hxy hyz

/-- The binding order is total. -/
theorem pairLeB_total (x y : String × String) :
    pairLeB x y = true ∨ pairLeB y x = true := by
  unfold pairLeB
  by_cases h : x.1.data = y.1.data
  · simp [h]
    exact listLeB_total _ _
  · have h2 : ¬ y.1.data = x.1.data := fun hh => h hh.symm
    simp [h, h2]
    exact listLeB_total _ _

/-- The binding order is antisymmetric. -/
theorem pairLeB_antisymm {x y : String × String}
    (hxy : pairLeB x y = true) (hyx : pairLeB y x = true) : x = y := by
  obtain ⟨x1, x2⟩ := x
  obtain ⟨y1, y2⟩ := y
  unfold pairLeB at hxy hyx
  by_cases h : x1.data = y1.data
  · have h2 : y1.data = x1.data := h.symm
    simp only [h, if_pos rfl] at hxy
    simp only [h2, if_pos rfl] at hyx
    have hv : x2.data = y2.data := listLeB_antisymm hxy hyx
    have e1 : x1 = y1 := String.ext h
    have e2 : x2 = y2 := String.ext hv
    rw [e1, e2]
  · have h2 : ¬ y1.data = x1.data := fun hh => h hh.symm
    simp only [if_neg h] at hxy
    simp only [if_neg h2] at hyx
    exact absurd (String.ext (listLeB_antisymm hxy hyx)) (fun hh => h (by rw [hh]))

/-- The binding order is transitive. -/
theorem pairLeB_trans {x y z : String × String}
    (hxy : pairLeB x y = true) (hyz : pairLeB y z = true) : pairLeB x z = true := by
  unfold pairLeB at hxy hyz ⊢
  by_cases h1 : x.1.data = y.1.data
  · by_cases h2 : y.1.data = z.1.data
    · have h3 : x.1.data = z.1.data := h1.trans h2
      simp only [if_pos h1] at hxy
      simp only [if_pos h2] at hyz
      simp only [if_pos h3]
      exact listLeB_trans hxy hyz
    · have h3 : ¬ x.1.data = z.1.data := fun hh => h2 (h1.symm.trans hh)
      simp only [if_neg h2] at hyz
      simp only [if_neg h3]
      rw [h1]
      exact hyz
  · by_cases h2 : y.1.data = z.1.data
    · have h3 : ¬ x.1.data = z.1.data := fun hh => h1 (hh.trans h2.symm)
      simp only [if_neg h1] at hxy
      simp only [if_neg h3]
      rw [← h2]
      exact hxy
    · simp only [if_neg h1] at hxy
      simp only [if_neg h2] at hyz
      by_cases h3 : x.1.data = z.1.data
      · exact absurd (listLeB_antisymm hxy (by rw [← h3] at hyz; exact hyz)) h1
      · simp only [if_neg h3]
        exact listLeB_trans hxy hyz

instance : IsTotal (String × String) envLe := ⟨fun x y => pairLeB_total x y⟩

instance : IsTrans (String × String) envLe :=
  ⟨fun _ _ _ hxy hyz => pairLeB_trans hxy hyz⟩

instance : IsAntisymm (String × String) envLe :=
  ⟨fun _ _ hxy hyx => pairLeB_antisymm hxy hyx⟩

/-- Normalization of bindings is invariant under reordering: two binding
lists that are permutations of each other normalize identically. -/
theorem normBindings_perm {bs bs2 : List (String × String)} (h : bs.Perm bs2) :
    normBindings bs = normBindings bs2 :=
  List.eq_of_perm_of_sorted
    (((List.perm_insertionSort envLe bs).trans h).trans
      (List.perm_insertionSort envLe bs2).symm)
    (List.sorted_insertionSort envLe bs) (List.sorted_insertionSort envLe bs2)

/-! ### Basic lemmas: cache, validation, compilation -/

/-- After a commit for fingerprint f, looking up f finds exactly the layer
the commit returned. -/
theorem lookupLayer_commit_self (cache : Cache) (f : Fingerprint) (l : Layer) :
    lookupLayer (commit cache f l).1 f = some (commit cache f l).2.1 := by
  cases h : lookupLayer cache f with
  | some l0 => simp [commit, h]
  | none => simp [commit, h, lookupLayer]

/-- Committing never removes or changes an existing cache entry. -/
theorem commit_preserves_lookup {cache : Cache} {g : Fingerprint} {L : Layer}
    (h : lookupLayer cache g = some L) (f : Fingerprint) (l : Layer) :
    lookupLayer (commit cache f l).1 g = some L := by
  cases hf : lookupLayer cache f with
  | some l0 => simpa [commit, hf] using h
  | none =>
    have hne : ¬ f = g := by
      intro hh
      rw [hh] at hf
      rw [hf] at h
      exact Option.noConfusion h
    simp [commit, hf, lookupLayer, hne, h]

/-- A fingerprint that looks up to nothing is stored zero times. -/
theorem countFp_eq_zero_of_lookup_none :
    ∀ {cache : Cache} {f : Fingerprint}, lookupLayer cache f = none → countFp f cache = 0 := by
  intro cache f h
  induction cache with
  | nil => rfl
  | cons e rest ih =>
    unfold lookupLayer at h
    by_cases hg : e.1 = f
    · rw [if_pos hg] at h
      exact Option.noConfusion h
    · rw [if_neg hg] at h
      simp only [countFp, List.countP_cons] at *
      simp [hg, ih h]

/-- A plan has exactly one entry per recipe step. -/
theorem fingerprintSteps_length (p : Fingerprint) (es : List Step) :
    (fingerprintSteps p es).length = es.length := by
  induction es generalizing p with
  | nil => rfl
  | cons s rest ih => simp [fingerprintSteps, ih]

/-- Compiling a concatenation fingerprints the first part and continues
from the fingerprint the first part chains to. -/
theorem fingerprintSteps_append (p : Fingerprint) (xs ys : List Step) :
    fingerprintSteps p (xs ++ ys)
      = fingerprintSteps p xs ++ fingerprintSteps (chainFp p xs) ys := by
  induction xs generalizing p with
  | nil => simp [fingerprintSteps, chainFp]
  | cons s rest ih => simp [fingerprintSteps, chainFp, ih]

/-- The fingerprint column of a plan. -/
theorem fingerprintSteps_map_snd (p : Fingerprint) (es : List Step) :
    (fingerprintSteps p es).map (fun e => e.2) = fpList p es := by
  induction es generalizing p with
  | nil => rfl
  | cons s rest ih => simp [fingerprintSteps, fpList, ih]

/-- The fingerprint list also splits along concatenation. -/
theorem fpList_append (p : Fingerprint) (xs ys : List Step) :
    fpList p (xs ++ ys) = fpList p xs ++ fpList (chainFp p xs) ys := by
  induction xs generalizing p with
  | nil => simp [fpList, chainFp]
  | cons s rest ih => simp [fpList, chainFp, ih]

/-- Length of the fingerprint list. -/
theorem fpList_length (p : Fingerprint) (es : List Step) :
    (fpList p es).length = es.length := by
  induction es generalizing p with
  | nil => rfl
  | cons s rest ih => simp [fpList, ih]

/-- Inversion of a successful compilation: validation passed and the plan
is the fingerprint walk of the steps. -/
theorem compile_ok_inv {vols : List String} {r : BuildRecipe}
    {plan : List (Step × Fingerprint)} (h : compile vols r = .ok plan) :
    validate vols r = none ∧ plan = fingerprintSteps (.base r.baseImage) r.steps := by
  unfold compile at h
  cases hv : validate vols r with
  | some e => rw [hv] at h; exact Except.noConfusion h
  | none =>
    rw [hv] at h
    refine ⟨rfl, ?_⟩
    cases h
    rfl

/-- A recipe that validates is non-empty. -/
theorem validate_none_nonempty {vols : List String} {r : BuildRecipe}
    (h : validate vols r = none) : r.steps ≠ [] := by
  intro hs
  unfold validate at h
  rw [if_pos hs] at h
  exact Option.noConfusion h

/-- Scanning finds no issue exactly when no step has an issue. -/
theorem findIssue_none_iff (vols : List String) :
    ∀ es : List Step, findIssue vols es = none ↔ ∀ s ∈ es, stepIssue vols s = none := by
  intro es
  induction es with
  | nil => simp [findIssue]
  | cons s rest ih =>
    cases h : stepIssue vols s with
    | some e => simp [findIssue, h]
    | none => simp [findIssue, h, ih]

/-! ### Unfolding equations for execution -/

/-- A step result that is not a success. -/
def failing : StepResult → Bool
  | .success _ => false
  | .nonZeroExit _ => true
  | .resourceUnavailable => true

/-- Running an empty plan succeeds at once with the current fingerprint. -/
theorem runSteps_nil (ctx : Step → StepResult) (cache : Cache) (cur : Fingerprint) (i : Nat) :
    runSteps ctx cache cur i [] = ⟨cache, [], [.succeeded], .ok cur⟩ := rfl

/-- Unfolding: a cache hit advances without side effects. -/
theorem runSteps_cons_hit (ctx : Step → StepResult) (cache : Cache) (cur : Fingerprint)
    (i : Nat) (s : Step) (f : Fingerprint) (rest : List (Step × Fingerprint)) {l : Layer}
    (h : lookupLayer cache f = some l) :
    runSteps ctx cache cur i ((s, f) :: rest)
      = ⟨(runSteps ctx cache f (i + 1) rest).cache,
         (runSteps ctx cache f (i + 1) rest).executed,
         .executing i :: (runSteps ctx cache f (i + 1) rest).trace,
         (runSteps ctx cache f (i + 1) rest).result⟩ := by
  simp only [runSteps]
  rw [h]

/-- Unfolding: a miss with a successful execution commits and continues. -/
theorem runSteps_cons_miss_success (ctx : Step → StepResult) (cache : Cache)
    (cur : Fingerprint) (i : Nat) (s : Step) (f : Fingerprint)
    (rest : List (Step × Fingerprint)) {d : String}
    (h : lookupLayer cache f = none) (hc : ctx s = .success d) :
    runSteps ctx cache cur i ((s, f) :: rest)
      = ⟨(runSteps ctx (commit cache f ⟨f, some cur, d⟩).1 f (i + 1) rest).cache,
         i :: (runSteps ctx (commit cache f ⟨f, some cur, d⟩).1 f (i + 1) rest).executed,
         .executing i :: (runSteps ctx (commit cache f ⟨f, some cur, d⟩).1 f (i + 1) rest).trace,
         (runSteps ctx (commit cache f ⟨f, some cur, d⟩).1 f (i + 1) rest).result⟩ := by
  simp only [runSteps]
  rw [h, hc]

/-- Unfolding: a miss with a failing execution aborts the plan, committing
nothing. -/
theorem runSteps_cons_fail (ctx : Step → StepResult) (cache : Cache)
    (cur : Fingerprint) (i : Nat) (s : Step) (f : Fingerprint)
    (rest : List (Step × Fingerprint))
    (h : lookupLayer cache f = none) (hc : failing (ctx s) = true) :
    runSteps ctx cache cur i ((s, f) :: rest)
      = ⟨cache, [i], [.executing i, .failedExec i], .error (i, s)⟩ := by
  simp only [runSteps]
  rw [h]
  cases hcc : ctx s with
  | success d => simp [failing, hcc] at hc
  | nonZeroExit code => rfl
  | resourceUnavailable => rfl

/-! ### Execution lemmas -/

/-- Every executed index is at least the starting index. -/
theorem runSteps_executed_lb (ctx : Step → StepResult) :
    ∀ (es : List (Step × Fingerprint)) (cache : Cache) (cur : Fingerprint) (i j : Nat),
      j ∈ (runSteps ctx cache cur i es).executed → i ≤ j := by
  intro es
  induction es with
  | nil =>
    intro cache cur i j hj
    simp [runSteps_nil] at hj
  | cons e rest ih =>
    obtain ⟨s, f⟩ := e
    intro cache cur i j hj
    cases h : lookupLayer cache f with
    | some l =>
      simp only [runSteps_cons_hit ctx cache cur i s f rest h] at hj
      have := ih cache f (i + 1) j hj
      omega
    | none =>
      cases hc : ctx s with
      | success d =>
        simp only [runSteps_cons_miss_success ctx cache cur i s f rest h hc,
          List.mem_cons] at hj
        rcases hj with rfl | hj
        · exact Nat.le_refl j
        · have := ih _ f (i + 1) j hj
          omega
      | nonZeroExit code =>
        have hfl : failing (ctx s) = true := by rw [hc]; rfl
        simp only [runSteps_cons_fail ctx cache cur i s f rest h hfl,
          List.mem_singleton] at hj
        omega
      | resourceUnavailable =>
        have hfl : failing (ctx s) = true := by rw [hc]; rfl
        simp only [runSteps_cons_fail ctx cache cur i s f rest h hfl,
          List.mem_singleton] at hj
        omega

/-- Execution never removes or changes an existing cache entry. -/
theorem runSteps_preserves_lookup (ctx : Step → StepResult) :
    ∀ (es : List (Step × Fingerprint)) (cache : Cache) (cur : Fingerprint) (i : Nat)
      {g : Fingerprint} {L : Layer}, lookupLayer cache g = some L →
      lookupLayer (runSteps ctx cache cur i es).cache g = some L := by
  intro es
  induction es with
  | nil =>
    intro cache cur i g L hg
    simpa [runSteps_nil] using hg
  | cons e rest ih =>
    obtain ⟨s, f⟩ := e
    intro cache cur i g L hg
    cases h : lookupLayer cache f with
    | some l =>
      simp only [runSteps_cons_hit ctx cache cur i s f rest h]
      exact ih cache f (i + 1) hg
    | none =>
      cases hc : ctx s with
      | success d =>
        simp only [runSteps_cons_miss_success ctx cache cur i s f rest h hc]
        exact ih _ f (i + 1) (commit_preserves_lookup hg f ⟨f, some cur, d⟩)
      | nonZeroExit code =>
        have hfl : failing (ctx s) = true := by rw [hc]; rfl
        simpa [runSteps_cons_fail ctx cache cur i s f rest h hfl] using hg
      | resourceUnavailable =>
        have hfl : failing (ctx s) = true := by rw [hc]; rfl
        simpa [runSteps_cons_fail ctx cache cur i s f rest h hfl] using hg

/-- After a successful run, every fingerprint of the plan is stored in the
final cache. -/
theorem runSteps_ok_all_cached (ctx : Step → StepResult) :
    ∀ (es : List (Step × Fingerprint)) (cache : Cache) (cur : Fingerprint) (i : Nat)
      (F : Fingerprint), (runSteps ctx cache cur i es).result = .ok F →
      ∀ e ∈ es, lookupLayer (runSteps ctx cache cur i es).cache e.2 ≠ none := by
  intro es
  induction es with
  | nil =>
    intro cache cur i F hF e he
    simp at he
  | cons e0 rest ih =>
    obtain ⟨s, f⟩ := e0
    intro cache cur i F hF e he
    cases h : lookupLayer cache f with
    | some l =>
      simp only [runSteps_cons_hit ctx cache cur i s f rest h] at hF ⊢
      rcases List.mem_cons.mp he with rfl | he2
      · rw [runSteps_preserves_lookup ctx rest cache f (i + 1) h]
        exact Option.noConfusion
      · exact ih cache f (i + 1) F hF e he2
    | none =>
      cases hc : ctx s with
      | success d =>
        simp only [runSteps_cons_miss_success ctx cache cur i s f rest h hc] at hF ⊢
        rcases List.mem_cons.mp he with rfl | he2
        · rw [runSteps_preserves_lookup ctx rest _ f (i + 1)
            (lookupLayer_commit_self cache f ⟨f, some cur, d⟩)]
          exact Option.noConfusion
        · exact ih _ f (i + 1) F hF e he2
      | nonZeroExit code =>
        have hfl : failing (ctx s) = true := by rw [hc]; rfl
        simp [runSteps_cons_fail ctx cache cur i s f rest h hfl] at hF
      | resourceUnavailable =>
        have hfl : failing (ctx s) = true := by rw [hc]; rfl
        simp [runSteps_cons_fail ctx cache cur i s f rest h hfl] at hF

/-- Entries whose fingerprints are already cached are never executed: a
run over a cached head segment only ever executes indices past it. -/
theorem runSteps_skips_cached (ctx : Step → StepResult) :
    ∀ (es1 es2 : List (Step × Fingerprint)) (cache : Cache) (cur : Fingerprint) (i : Nat),
      (∀ e ∈ es1, lookupLayer cache e.2 ≠ none) →
      ∀ j ∈ (runSteps ctx cache cur i (es1 ++ es2)).executed, i + es1.length ≤ j := by
  intro es1
  induction es1 with
  | nil =>
    intro es2 cache cur i hhit j hj
    simpa using runSteps_executed_lb ctx es2 cache cur i j hj
  | cons e rest ih =>
    obtain ⟨s, f⟩ := e
    intro es2 cache cur i hhit j hj
    have hf : lookupLayer cache f ≠ none := hhit (s, f) (List.mem_cons_self _ _)
    cases h : lookupLayer cache f with
    | none => exact absurd h hf
    | some l =>
      rw [List.cons_append] at hj
      simp only [runSteps_cons_hit ctx cache cur i s f (rest ++ es2) h] at hj
      have := ih es2 cache f (i + 1) (fun e2 he2 => hhit e2 (List.mem_cons_of_mem _ he2)) j hj
      simp only [List.length_cons]
      omega

/-- Running a plan whose fingerprints are all cached executes nothing,
changes nothing, and succeeds with the final fingerprint of the plan. -/
theorem runSteps_all_cached_noop (ctx : Step → StepResult) :
    ∀ (es : List (Step × Fingerprint)) (cache : Cache) (cur : Fingerprint) (i : Nat),
      (∀ e ∈ es, lookupLayer cache e.2 ≠ none) →
      (runSteps ctx cache cur i es).cache = cache ∧
      (runSteps ctx cache cur i es).executed = [] ∧
      (runSteps ctx cache cur i es).result = .ok (lastFp cur es) := by
  intro es
  induction es with
  | nil =>
    intro cache cur i hhit
    exact ⟨rfl, rfl, rfl⟩
  | cons e rest ih =>
    obtain ⟨s, f⟩ := e
    intro cache cur i hhit
    have hf : lookupLayer cache f ≠ none := hhit (s, f) (List.mem_cons_self _ _)
    cases h : lookupLayer cache f with
    | none => exact absurd h hf
    | some l =>
      simp only [runSteps_cons_hit ctx cache cur i s f rest h]
      have := ih cache f (i + 1) (fun e2 he2 => hhit e2 (List.mem_cons_of_mem _ he2))
      exact ⟨this.1, this.2.1, this.2.2⟩

/-- A successful run reports the fingerprint of the last plan entry. -/
theorem runSteps_ok_value (ctx : Step → StepResult) :
    ∀ (es : List (Step × Fingerprint)) (cache : Cache) (cur : Fingerprint) (i : Nat)
      (F : Fingerprint), (runSteps ctx cache cur i es).result = .ok F → F = lastFp cur es := by
  intro es
  induction es with
  | nil =>
    intro cache cur i F hF
    simp [runSteps_nil] at hF
    exact hF.symm
  | cons e rest ih =>
    obtain ⟨s, f⟩ := e
    intro cache cur i F hF
    cases h : lookupLayer cache f with
    | some l =>
      simp only [runSteps_cons_hit ctx cache cur i s f rest h] at hF
      exact ih cache f (i + 1) F hF
    | none =>
      cases hc : ctx s with
      | success d =>
        simp only [runSteps_cons_miss_success ctx cache cur i s f rest h hc] at hF
        exact ih _ f (i + 1) F hF
      | nonZeroExit code =>
        have hfl : failing (ctx s) = true := by rw [hc]; rfl
        simp [runSteps_cons_fail ctx cache cur i s f rest h hfl] at hF
      | resourceUnavailable =>
        have hfl : failing (ctx s) = true := by rw [hc]; rfl
        simp [runSteps_cons_fail ctx cache cur i s f rest h hfl] at hF

/-- Everything a failed run establishes: the failing index is in range,
the reported step is the plan entry at that index, no layer is stored for
the failing fingerprint, every earlier entry of the plan has a stored
layer, and no index past the failure was executed. -/
theorem runSteps_error_facts (ctx : Step → StepResult) :
    ∀ (es : List (Step × Fingerprint)) (cache : Cache) (cur : Fingerprint) (i k : Nat)
      (s : Step), (runSteps ctx cache cur i es).result = .error (k, s) →
      i ≤ k ∧ k - i < es.length ∧
      (∃ f, es[k - i]? = some (s, f) ∧
        lookupLayer (runSteps ctx cache cur i es).cache f = none ∧
        failing (ctx s) = true) ∧
      (∀ e ∈ es.take (k - i), lookupLayer (runSteps ctx cache cur i es).cache e.2 ≠ none) ∧
      (∀ j ∈ (runSteps ctx cache cur i es).executed, j ≤ k) := by
  intro es
  induction es with
  | nil =>
    intro cache cur i k s hres
    simp [runSteps_nil] at hres
  | cons e0 rest ih =>
    obtain ⟨s0, f0⟩ := e0
    intro cache cur i k s hres
    cases h : lookupLayer cache f0 with
    | some l =>
      simp only [runSteps_cons_hit ctx cache cur i s0 f0 rest h] at hres ⊢
      obtain ⟨hik, hlen, ⟨f, hget, hnone, hfl⟩, htake, hexec⟩ :=
        ih cache f0 (i + 1) k s hres
      have hki : i ≤ k := by omega
      have hsub : k - i = (k - (i + 1)) + 1 := by omega
      refine ⟨hki, by simp [hsub]; omega, ⟨f, ?_, hnone, hfl⟩, ?_, hexec⟩
      · rw [hsub, List.getElem?_cons_succ]
        exact hget
      · intro e he
        rw [hsub, List.take_succ_cons] at he
        rcases List.mem_cons.mp he with rfl | he2
        · rw [runSteps_preserves_lookup ctx rest cache f0 (i + 1) h]
          exact Option.noConfusion
        · exact htake e he2
    | none =>
      cases hc : ctx s0 with
      | success d =>
        simp only [runSteps_cons_miss_success ctx cache cur i s0 f0 rest h hc] at hres ⊢
        obtain ⟨hik, hlen, ⟨f, hget, hnone, hfl⟩, htake, hexec⟩ :=
          ih _ f0 (i + 1) k s hres
        have hki : i ≤ k := by omega
        have hsub : k - i = (k - (i + 1)) + 1 := by omega
        refine ⟨hki, by simp [hsub]; omega, ⟨f, ?_, hnone, hfl⟩, ?_, ?_⟩
        · rw [hsub, List.getElem?_cons_succ]
          exact hget
        · intro e he
          rw [hsub, List.take_succ_cons] at he
          rcases List.mem_cons.mp he with rfl | he2
          · rw [runSteps_preserves_lookup ctx rest _ f0 (i + 1)
              (lookupLayer_commit_self cache f0 ⟨f0, some cur, d⟩)]
            exact Option.noConfusion
          · exact htake e he2
        · intro j hj
          rcases List.mem_cons.mp hj with rfl | hj2
          · omega
          · exact hexec j hj2
      | nonZeroExit code =>
        have hfl : failing (ctx s0) = true := by rw [hc]; rfl
        simp only [runSteps_cons_fail ctx cache cur i s0 f0 rest h hfl,
          Except.error.injEq, Prod.mk.injEq] at hres ⊢
        obtain ⟨rfl, rfl⟩ := hres
        refine ⟨Nat.le_refl i, by simp, ⟨f0, by simp, h, hfl⟩, by simp, ?_⟩
        intro j hj
        simp at hj
        omega
      | resourceUnavailable =>
        have hfl : failing (ctx s0) = true := by rw [hc]; rfl
        simp only [runSteps_cons_fail ctx cache cur i s0 f0 rest h hfl,
          Except.error.injEq, Prod.mk.injEq] at hres ⊢
        obtain ⟨rfl, rfl⟩ := hres
        refine ⟨Nat.le_refl i, by simp, ⟨f0, by simp, h, hfl⟩, by simp, ?_⟩
        intro j hj
        simp at hj
        omega

/-! ### Trace lemmas -/

/-- The first trace state of a run: succeeded for an empty plan, otherwise
the executing state of the first index. -/
theorem runSteps_trace_head (ctx : Step → StepResult) :
    ∀ (es : List (Step × Fingerprint)) (cache : Cache) (cur : Fingerprint) (i : Nat),
      (runSteps ctx cache cur i es).trace.head?
        = some (match es with
                | [] => BuildState.succeeded
                | _ :: _ => BuildState.executing i) := by
  intro es cache cur i
  cases es with
  | nil => rfl
  | cons e rest =>
    obtain ⟨s, f⟩ := e
    cases h : lookupLayer cache f with
    | some l => simp [runSteps_cons_hit ctx cache cur i s f rest h]
    | none =>
      cases hc : ctx s with
      | success d => simp [runSteps_cons_miss_success ctx cache cur i s f rest h hc]
      | nonZeroExit code =>
        have hfl : failing (ctx s) = true := by rw [hc]; rfl
        simp [runSteps_cons_fail ctx cache cur i s f rest h hfl]
      | resourceUnavailable =>
        have hfl : failing (ctx s) = true := by rw [hc]; rfl
        simp [runSteps_cons_fail ctx cache cur i s f rest h hfl]

/-- The trace of a run only moves along the allowed transitions. -/
theorem runSteps_trace_chain (ctx : Step → StepResult) :
    ∀ (es : List (Step × Fingerprint)) (cache : Cache) (cur : Fingerprint) (i : Nat),
      List.Chain' allowedEdge (runSteps ctx cache cur i es).trace := by
  intro es
  induction es with
  | nil =>
    intro cache cur i
    exact List.chain'_singleton _
  | cons e rest ih =>
    obtain ⟨s, f⟩ := e
    intro cache cur i
    cases h : lookupLayer cache f with
    | some l =>
      simp only [runSteps_cons_hit ctx cache cur i s f rest h]
      refine List.chain'_cons'.mpr ⟨?_, ih cache f (i + 1)⟩
      intro y hy
      rw [runSteps_trace_head ctx rest cache f (i + 1)] at hy
      cases hy
      cases rest with
      | nil => simp [allowedEdge]
      | cons e2 rest2 => simp [allowedEdge]
    | none =>
      cases hc : ctx s with
      | success d =>
        simp only [runSteps_cons_miss_success ctx cache cur i s f rest h hc]
        refine List.chain'_cons'.mpr ⟨?_, ih _ f (i + 1)⟩
        intro y hy
        rw [runSteps_trace_head ctx rest _ f (i + 1)] at hy
        cases hy
        cases rest with
        | nil => simp [allowedEdge]
        | cons e2 rest2 => simp [allowedEdge]
      | nonZeroExit code =>
        have hfl : failing (ctx s) = true := by rw [hc]; rfl
        simp only [runSteps_cons_fail ctx cache cur i s f rest h hfl]
        refine List.chain'_cons'.mpr ⟨?_, List.chain'_singleton _⟩
        intro y hy
        cases hy
        simp [allowedEdge]
      | resourceUnavailable =>
        have hfl : failing (ctx s) = true := by rw [hc]; rfl
        simp only [runSteps_cons_fail ctx cache cur i s f rest h hfl]
        refine List.chain'_cons'.mpr ⟨?_, List.chain'_singleton _⟩
        intro y hy
        cases hy
        simp [allowedEdge]

/-- Every trace state of a run is succeeded, executing, or an execution
failure; in particular a compile failure never appears. -/
theorem runSteps_trace_mem (ctx : Step → StepResult) :
    ∀ (es : List (Step × Fingerprint)) (cache : Cache) (cur : Fingerprint) (i : Nat)
      (st : BuildState), st ∈ (runSteps ctx cache cur i es).trace →
      st = .succeeded ∨ (∃ j, st = .executing j) ∨ ∃ j, st = .failedExec j := by
  intro es
  induction es with
  | nil =>
    intro cache cur i st hst
    simp [runSteps_nil] at hst
    exact Or.inl hst
  | cons e rest ih =>
    obtain ⟨s, f⟩ := e
    intro cache cur i st hst
    cases h : lookupLayer cache f with
    | some l =>
      simp only [runSteps_cons_hit ctx cache cur i s f rest h, List.mem_cons] at hst
      rcases hst with rfl | hst2
      · exact Or.inr (Or.inl ⟨i, rfl⟩)
      · exact ih cache f (i + 1) st hst2
    | none =>
      cases hc : ctx s with
      | success d =>
        simp only [runSteps_cons_miss_success ctx cache cur i s f rest h hc,
          List.mem_cons] at hst
        rcases hst with rfl | hst2
        · exact Or.inr (Or.inl ⟨i, rfl⟩)
        · exact ih _ f (i + 1) st hst2
      | nonZeroExit code =>
        have hfl : failing (ctx s) = true := by rw [hc]; rfl
        simp only [runSteps_cons_fail ctx cache cur i s f rest h hfl,
          List.mem_cons, List.mem_singleton] at hst
        rcases hst with rfl | rfl | hst2
        · exact Or.inr (Or.inl ⟨i, rfl⟩)
        · exact Or.inr (Or.inr ⟨i, rfl⟩)
        · simp at hst2
      | resourceUnavailable =>
        have hfl : failing (ctx s) = true := by rw [hc]; rfl
        simp only [runSteps_cons_fail ctx cache cur i s f rest h hfl,
          List.mem_cons, List.mem_singleton] at hst
        rcases hst with rfl | rfl | hst2
        · exact Or.inr (Or.inl ⟨i, rfl⟩)
        · exact Or.inr (Or.inr ⟨i, rfl⟩)
        · simp at hst2

/-- An execution-failure state appears in the trace only when the run
actually failed at that index, on a step whose execution was failing. -/
theorem runSteps_failedExec_mem (ctx : Step → StepResult) :
    ∀ (es : List (Step × Fingerprint)) (cache : Cache) (cur : Fingerprint) (i k : Nat),
      BuildState.failedExec k ∈ (runSteps ctx cache cur i es).trace →
      ∃ s, (runSteps ctx cache cur i es).result = .error (k, s) ∧ failing (ctx s) = true := by
  intro es
  induction es with
  | nil =>
    intro cache cur i k hk
    simp [runSteps_nil] at hk
  | cons e rest ih =>
    obtain ⟨s0, f⟩ := e
    intro cache cur i k hk
    cases h : lookupLayer cache f with
    | some l =>
      simp only [runSteps_cons_hit ctx cache cur i s0 f rest h, List.mem_cons] at hk ⊢
      rcases hk with hk0 | hk2
      · exact absurd hk0 (by simp)
      · exact ih cache f (i + 1) k hk2
    | none =>
      cases hc : ctx s0 with
      | success d =>
        simp only [runSteps_cons_miss_success ctx cache cur i s0 f rest h hc,
          List.mem_cons] at hk ⊢
        rcases hk with hk0 | hk2
        · exact absurd hk0 (by simp)
        · exact ih _ f (i + 1) k hk2
      | nonZeroExit code =>
        have hfl : failing (ctx s0) = true := by rw [hc]; rfl
        simp only [runSteps_cons_fail ctx cache cur i s0 f rest h hfl,
          List.mem_cons, List.mem_singleton] at hk ⊢
        rcases hk with hk0 | hk0 | hk2
        · exact absurd hk0 (by simp)
        · cases hk0
          exact ⟨s0, rfl, hfl⟩
        · simp at hk2
      | resourceUnavailable =>
        have hfl : failing (ctx s0) = true := by rw [hc]; rfl
        simp only [runSteps_cons_fail ctx cache cur i s0 f rest h hfl,
          List.mem_cons, List.mem_singleton] at hk ⊢
        rcases hk with hk0 | hk0 | hk2
        · exact absurd hk0 (by simp)
        · cases hk0
          exact ⟨s0, rfl, hfl⟩
        · simp at hk2

/-- A terminal state only ever sits at the last position of a trace. -/
theorem runSteps_terminal_last (ctx : Step → StepResult) :
    ∀ (es : List (Step × Fingerprint)) (cache : Cache) (cur : Fingerprint) (i m : Nat)
      (st : BuildState), (runSteps ctx cache cur i es).trace[m]? = some st →
      isTerminal st = true → m + 1 = (runSteps ctx cache cur i es).trace.length := by
  intro es
  induction es with
  | nil =>
    intro cache cur i m st hm hterm
    rw [runSteps_nil] at hm ⊢
    cases m with
    | zero => rfl
    | succ m2 => simp at hm
  | cons e rest ih =>
    obtain ⟨s, f⟩ := e
    intro cache cur i m st hm hterm
    cases h : lookupLayer cache f with
    | some l =>
      simp only [runSteps_cons_hit ctx cache cur i s f rest h] at hm ⊢
      cases m with
      | zero =>
        simp at hm
        rw [← hm] at hterm
        simp [isTerminal] at hterm
      | succ m2 =>
        rw [List.getElem?_cons_succ] at hm
        have := ih cache f (i + 1) m2 st hm hterm
        simp [List.length_cons]
        omega
    | none =>
      cases hc : ctx s with
      | success d =>
        simp only [runSteps_cons_miss_success ctx cache cur i s f rest h hc] at hm ⊢
        cases m with
        | zero =>
          simp at hm
          rw [← hm] at hterm
          simp [isTerminal] at hterm
        | succ m2 =>
          rw [List.getElem?_cons_succ] at hm
          have := ih _ f (i + 1) m2 st hm hterm
          simp [List.length_cons]
          omega
      | nonZeroExit code =>
        have hfl : failing (ctx s) = true := by rw [hc]; rfl
        simp only [runSteps_cons_fail ctx cache cur i s f rest h hfl] at hm ⊢
        cases m with
        | zero =>
          simp at hm
          rw [← hm] at hterm
          simp [isTerminal] at hterm
        | succ m2 =>
          cases m2 with
          | zero => rfl
          | succ m3 => simp at hm
      | resourceUnavailable =>
        have hfl : failing (ctx s) = true := by rw [hc]; rfl
        simp only [runSteps_cons_fail ctx cache cur i s f rest h hfl] at hm ⊢
        cases m with
        | zero =>
          simp at hm
          rw [← hm] at hterm
          simp [isTerminal] at hterm
        | succ m2 =>
          cases m2 with
          | zero => rfl
          | succ m3 => simp at hm

/-! ### Whole-build unfolding -/

/-- A build whose compilation fails stops at the compiling state. -/
theorem build_error_eq {vols : List String} {ctx : Step → StepResult} {r : BuildRecipe}
    {e : ValidationError} (h : compile vols r = .error e) :
    build vols ctx r
      = ⟨[.pending, .compiling, .failedCompile], [], [], .error (.validation e)⟩ := by
  unfold build
  rw [h]

/-- A build whose compilation succeeds runs the plan from a fresh cache. -/
theorem build_ok_eq {vols : List String} {ctx : Step → StepResult} {r : BuildRecipe}
    {plan : List (Step × Fingerprint)} (h : compile vols r = .ok plan) :
    build vols ctx r
      = ⟨.pending :: .compiling :: (runSteps ctx [] (.base r.baseImage) 0 plan).trace,
         (runSteps ctx [] (.base r.baseImage) 0 plan).executed,
         (runSteps ctx [] (.base r.baseImage) 0 plan).cache,
         (runSteps ctx [] (.base r.baseImage) 0 plan).result.mapError
           (fun p => .execution p.1 p.2)⟩ := by
  unfold build
  rw [h]

/-! ### Fingerprint divergence -/

/-- Fingerprints with different parents are different, whatever the
steps. -/
theorem fingerprint_ne_of_parent_ne {p q : Fingerprint} (s t : Step) (h : p ≠ q) :
    fingerprint p s ≠ fingerprint q t := by
  intro hh
  simp only [fingerprint, Fingerprint.node.injEq] at hh
  exact h hh.1

/-- Once the running parent fingerprints differ, every later fingerprint
differs, position by position. -/
theorem fpList_ne_of_parent_ne :
    ∀ (es1 es2 : List Step) (p q : Fingerprint), es1.length = es2.length → p ≠ q →
      ∀ k, k < es1.length → (fpList p es1)[k]? ≠ (fpList q es2)[k]? := by
  intro es1
  induction es1 with
  | nil =>
    intro es2 p q hlen hpq k hk
    simp at hk
  | cons s rest ih =>
    intro es2 p q hlen hpq k hk
    cases es2 with
    | nil => simp at hlen
    | cons t rest2 =>
      simp only [fpList]
      cases k with
      | zero =>
        simp only [List.getElem?_cons_zero, ne_eq, Option.some.injEq]
        exact fingerprint_ne_of_parent_ne s t hpq
      | succ k2 =>
        simp only [List.getElem?_cons_succ]
        exact ih rest2 (fingerprint p s) (fingerprint q t) (by simpa using hlen)
          (fingerprint_ne_of_parent_ne s t hpq) k2 (by simpa using hk)

/-- If two step lists start from the same parent but their heads already
fingerprint differently, every fingerprint from the head position onward
differs. -/
theorem fpList_ne_of_head_ne (s1 s2 : Step) (t1 t2 : List Step) (p : Fingerprint)
    (hlen : t1.length = t2.length) (hne : fingerprint p s1 ≠ fingerprint p s2) :
    ∀ k, k < t1.length + 1 → (fpList p (s1 :: t1))[k]? ≠ (fpList p (s2 :: t2))[k]? := by
  intro k hk
  cases k with
  | zero =>
    simp only [fpList, List.getElem?_cons_zero, ne_eq, Option.some.injEq]
    exact hne
  | succ k2 =>
    simp only [fpList, List.getElem?_cons_succ]
    exact fpList_ne_of_parent_ne t1 t2 _ _ hlen hne k2 (by omega)

/-! ### Concurrency lemmas -/

/-- Reading a slot just written. -/
theorem slotOf_setSlot_self :
    ∀ (st : CacheSt) (f : Fingerprint) (v : SlotState), slotOf (setSlot st f v) f = v := by
  intro st
  induction st with
  | nil => intro f v; simp [setSlot, slotOf]
  | cons e rest ih =>
    intro f v
    obtain ⟨g, old⟩ := e
    by_cases h : g = f
    · simp [setSlot, h, slotOf]
    · simp [setSlot, h, slotOf, ih]

/-- Writing one slot leaves every other slot unchanged. -/
theorem slotOf_setSlot_other :
    ∀ (st : CacheSt) (f g : Fingerprint) (v : SlotState), g ≠ f →
      slotOf (setSlot st f v) g = slotOf st g := by
  intro st
  induction st with
  | nil =>
    intro f g v hgf
    have hfg : ¬ f = g := fun h => hgf h.symm
    simp [setSlot, slotOf, hfg]
  | cons e rest ih =>
    intro f g v hgf
    obtain ⟨g0, old⟩ := e
    by_cases h : g0 = f
    · subst h
      have hfg : ¬ g0 = g := fun h2 => hgf h2.symm
      simp [setSlot, slotOf, hfg]
    · by_cases h2 : g0 = g
      · subst h2
        simp [setSlot, h, slotOf]
      · simp [setSlot, h, slotOf, h2, ih f g v hgf]

/-- How many more materializations a slot can admit: none once committed,
at most one otherwise. -/
def slotBudget : SlotState → Nat
  | .committed _ => 0
  | _ => 1

/-- The per-fingerprint build budget along a legal action sequence: a
committed slot admits no further materialization; any other slot admits at
most one. -/
theorem crun_buildCount_le :
    ∀ (acts : List CAct) (st st2 : CacheSt), crun st acts = some st2 →
      ∀ f, buildCount acts f ≤ slotBudget (slotOf st f) := by
  intro acts
  induction acts with
  | nil =>
    intro st st2 hrun f
    simp [buildCount]
  | cons a rest ih =>
    intro st st2 hrun f
    unfold crun at hrun
    cases hstep : cstep st a with
    | none => rw [hstep] at hrun; exact Option.noConfusion hrun
    | some st1 =>
      rw [hstep] at hrun
      have hrest := ih st1 st2 hrun f
      cases a with
      | acquire b g =>
        simp only [cstep] at hstep
        have hcount : buildCount (CAct.acquire b g :: rest) f = buildCount rest f := by
          simp [buildCount, List.countP_cons]
        rw [hcount]
        cases hslot : slotOf st g with
        | free =>
          rw [hslot] at hstep
          cases hstep
          by_cases hgf : g = f
          · subst hgf
            rw [slotOf_setSlot_self st g (.claimed b)] at hrest
            rw [hslot]
            simpa [slotBudget] using hrest
          · rw [slotOf_setSlot_other st g f (.claimed b) (fun h => hgf h.symm)] at hrest
            exact hrest
        | claimed c => rw [hslot] at hstep; exact Option.noConfusion hstep
        | committed lid => rw [hslot] at hstep; exact Option.noConfusion hstep
      | commitLayer b g lid =>
        simp only [cstep] at hstep
        cases hslot : slotOf st g with
        | free => rw [hslot] at hstep; exact Option.noConfusion hstep
        | committed l2 => rw [hslot] at hstep; exact Option.noConfusion hstep
        | claimed c =>
          rw [hslot] at hstep
          by_cases hcb : c = b
          · simp [hcb] at hstep
            subst hstep
            by_cases hgf : g = f
            · subst hgf
              rw [slotOf_setSlot_self st g (.committed lid)] at hrest
              simp only [slotBudget] at hrest
              have hcount : buildCount (CAct.commitLayer b g lid :: rest) g
                  = buildCount rest g + 1 := by
                simp [buildCount, List.countP_cons]
              rw [hcount, hslot]
              simp only [slotBudget]
              omega
            · rw [slotOf_setSlot_other st g f (.committed lid) (fun h => hgf h.symm)] at hrest
              have hcount : buildCount (CAct.commitLayer b g lid :: rest) f
                  = buildCount rest f := by
                simp [buildCount, List.countP_cons, hgf]
              rw [hcount]
              exact hrest
          · simp [hcb] at hstep
      | reuse b g =>
        simp only [cstep] at hstep
        have hcount : buildCount (CAct.reuse b g :: rest) f = buildCount rest f := by
          simp [buildCount, List.countP_cons]
        rw [hcount]
        cases hslot : slotOf st g with
        | free => rw [hslot] at hstep; exact Option.noConfusion hstep
        | claimed c => rw [hslot] at hstep; exact Option.noConfusion hstep
        | committed lid =>
          rw [hslot] at hstep
          cases hstep
          exact hrest
      | wait b g =>
        simp only [cstep] at hstep
        have hcount : buildCount (CAct.wait b g :: rest) f = buildCount rest f := by
          simp [buildCount, List.countP_cons]
        rw [hcount]
        cases hslot : slotOf st g with
        | free => rw [hslot] at hstep; exact Option.noConfusion hstep
        | committed lid => rw [hslot] at hstep; exact Option.noConfusion hstep
        | claimed c =>
          rw [hslot] at hstep
          by_cases hcb : c = b
          · simp [hcb] at hstep
          · simp [hcb] at hstep
            subst hstep
            exact hrest

/-! ### Remaining small helpers -/

/-- Inversion of a failed compilation: the error came from validation. -/
theorem compile_error_inv {vols : List String} {r : BuildRecipe} {e : ValidationError}
    (h : compile vols r = .error e) : validate vols r = some e := by
  unfold compile at h
  cases hv : validate vols r with
  | some e2 => rw [hv] at h; cases h; rfl
  | none => rw [hv] at h; exact Except.noConfusion h

/-- A compile-failure state never appears in an execution trace. -/
theorem runSteps_no_failedCompile (ctx : Step → StepResult)
    (es : List (Step × Fingerprint)) (cache : Cache) (cur : Fingerprint) (i : Nat) :
    BuildState.failedCompile ∉ (runSteps ctx cache cur i es).trace := by
  intro hmem
  rcases runSteps_trace_mem ctx es cache cur i _ hmem with h | ⟨j, h⟩ | ⟨j, h⟩ <;> simp at h

/-- The map n to "/root/" ++ n ++ "/vcpkg" is injective. -/
theorem wrap_vcpkg_inj (n m : String) :
    "/root/" ++ n ++ "/vcpkg" = "/root/" ++ m ++ "/vcpkg" → n = m := by
  intro h
  have hd : "/root/".data ++ (n.data ++ "/vcpkg".data)
      = "/root/".data ++ (m.data ++ "/vcpkg".data) := by
    simpa [String.data_append, List.append_assoc] using congrArg String.data h
  exact String.ext (List.append_cancel_right (List.append_cancel_left hd))

/-! ### Example fixtures used by witnesses -/

/-- An execution context in which every step succeeds. -/
def exCtxOk : Step → StepResult := fun _ => .success "delta"

/-- An execution context in which exactly the command "touch f" fails. -/
def exCtxFail : Step → StepResult := fun s =>
  match s with
  | .runCommand "touch f" _ _ => .nonZeroExit 1
  | _ => .success "delta"

/-- The end-to-end scenario steps of the spec. -/
def exSteps : List Step :=
  [ .setEnv [("A", "1")],
    .runCommand "echo hi" none none,
    .setWorkdir "/x",
    .runCommand "touch f" none none ]

/-- The end-to-end scenario recipe. -/
def exRecipe : BuildRecipe := ⟨"img", exSteps⟩

/-- The compiled plan of the scenario recipe. -/
def exPlan : List (Step × Fingerprint) := fingerprintSteps (.base "img") exSteps

/-! ### Claim theorems -/

/-- C3: the layer cache commit is idempotent: a second commit for the same
fingerprint is a no-op that returns the layer stored by the first commit
and performs no materialization work (its work flag is false), the
committed layer is what lookup finds, and a cache holding at most one
layer for a fingerprint still holds at most one after a commit. -/
theorem commit_idempotent (cache : Cache) (f : Fingerprint) (l1 l2 : Layer) :
    commit (commit cache f l1).1 f l2
        = ((commit cache f l1).1, (commit cache f l1).2.1, false) ∧
    lookupLayer (commit cache f l1).1 f = some (commit cache f l1).2.1 ∧
    (countFp f cache ≤ 1 → countFp f (commit cache f l1).1 ≤ 1) := by
  refine ⟨?_, lookupLayer_commit_self cache f l1, ?_⟩
  · cases h : lookupLayer cache f with
    | some l0 => simp [commit, h]
    | none => simp [commit, h, lookupLayer]
  · intro hle
    cases h : lookupLayer cache f with
    | some l0 => simpa [commit, h] using hle
    | none =>
      have h0 : List.countP (fun p => decide (p.1 = f)) cache = 0 :=
        countFp_eq_zero_of_lookup_none h
      simp [commit, h, countFp, List.countP_cons, h0]

/-- Witness for C3 at a concrete cache, fingerprint and layer. -/
theorem commit_idempotent_witness :
    countFp (Fingerprint.base "img")
      (commit [] (Fingerprint.base "img")
        ⟨Fingerprint.base "img", none, "d"⟩).1 ≤ 1 :=
  (commit_idempotent [] (Fingerprint.base "img")
    ⟨Fingerprint.base "img", none, "d"⟩ ⟨Fingerprint.base "img", none, "d"⟩).2.2
    (by decide)

/-- C5: a malformed recipe, whether empty, containing a mount declaration
that references an undefined external volume, or containing a malformed
step with an empty command string, is rejected by compilation with a
ValidationError, nothing is executed, and the build trace stops at the
compiling state. -/
theorem malformed_recipe_rejected
    (vols : List String) (ctx : Step → StepResult) (r : BuildRecipe)
    (hbad : r.steps = []
      ∨ (∃ pt v, Step.declareMount pt v ∈ r.steps ∧ v ∉ vols)
      ∨ (∃ res wd, Step.runCommand "" res wd ∈ r.steps)) :
    (∃ e, compile vols r = .error e) ∧
    (build vols ctx r).executed = [] ∧
    (build vols ctx r).trace = [.pending, .compiling, .failedCompile] ∧
    (∃ e, (build vols ctx r).result = .error (.validation e)) := by
  have hv : ∃ e, validate vols r = some e := by
    rcases hbad with hempty | ⟨pt, v, hmem, hnv⟩ | ⟨res, wd, hmem⟩
    · exact ⟨.emptyRecipe, by simp [validate, hempty]⟩
    · by_cases hempty : r.steps = []
      · exact ⟨.emptyRecipe, by simp [validate, hempty]⟩
      · cases hfi : findIssue vols r.steps with
        | some e => exact ⟨e, by simp [validate, hempty, hfi]⟩
        | none =>
          have hall := (findIssue_none_iff vols r.steps).mp hfi
          have hthis := hall _ hmem
          simp [stepIssue, hnv] at hthis
    · by_cases hempty : r.steps = []
      · exact ⟨.emptyRecipe, by simp [validate, hempty]⟩
      · cases hfi : findIssue vols r.steps with
        | some e => exact ⟨e, by simp [validate, hempty, hfi]⟩
        | none =>
          have hall := (findIssue_none_iff vols r.steps).mp hfi
          have hthis := hall _ hmem
          simp [stepIssue] at hthis
  obtain ⟨e, he⟩ := hv
  have hc : compile vols r = .error e := by simp [compile, he]
  rw [build_error_eq hc]
  exact ⟨⟨e, hc⟩, rfl, rfl, ⟨e, rfl⟩⟩

/-- Witness for C5 on the empty recipe. -/
theorem malformed_recipe_rejected_witness :
    (build [] exCtxOk ⟨"img", []⟩).executed = [] :=
  (malformed_recipe_rejected [] exCtxOk ⟨"img", []⟩ (Or.inl rfl)).2.1

/-- C6: two SetEnv steps whose bindings are the same collection in a
different textual order collapse to the same fingerprint, while command,
workdir and mount steps are never collapsed: equal fingerprints force
exactly equal content (the exact command string together with its declared
resource requirement and override). -/
theorem env_normalization_only (p : Fingerprint) :
    (∀ bs bs2 : List (String × String), bs.Perm bs2 →
       fingerprint p (.setEnv bs) = fingerprint p (.setEnv bs2)) ∧
    (∀ (c c2 : String) (r r2 w w2 : Option String),
       fingerprint p (.runCommand c r w) = fingerprint p (.runCommand c2 r2 w2) →
       c = c2 ∧ r = r2 ∧ w = w2) ∧
    (∀ a b : String,
       fingerprint p (.setWorkdir a) = fingerprint p (.setWorkdir b) → a = b) ∧
    (∀ a b a2 b2 : String,
       fingerprint p (.declareMount a b) = fingerprint p (.declareMount a2 b2) →
       a = a2 ∧ b = b2) := by
  refine ⟨?_, ?_, ?_, ?_⟩
  · intro bs bs2 hperm
    simp [fingerprint, normStep, normBindings_perm hperm]
  · intro c c2 r r2 w w2 h
    simpa [fingerprint, normStep] using h
  · intro a b h
    simpa [fingerprint, normStep] using h
  · intro a b a2 b2 h
    simpa [fingerprint, normStep] using h

/-- Witness for C6 on a two-binding environment written in both orders. -/
theorem env_normalization_only_witness :
    fingerprint (.base "img") (.setEnv [("B", "2"), ("A", "1")])
      = fingerprint (.base "img") (.setEnv [("A", "1"), ("B", "2")]) :=
  (env_normalization_only (.base "img")).1 _ _ (by decide)

/-- C9: invoked from a directory whose basename is "nvs-bench" the script
raises its assertion before resolving the external volume and before
declaring any image configuration; from any other basename the assertion
passes and the volume resolution, mount table and image recipe are all
produced. -/
theorem script_guard (cwdName : String) :
    (cwdName = "nvs-bench" →
       (scriptRun cwdName).assertionFailure ≠ none ∧
       (scriptRun cwdName).volumesResolved = [] ∧
       (scriptRun cwdName).mounts = [] ∧
       (scriptRun cwdName).recipe = none) ∧
    (cwdName ≠ "nvs-bench" →
       (scriptRun cwdName).assertionFailure = none ∧
       (scriptRun cwdName).volumesResolved = ["nvs-bench"] ∧
       (scriptRun cwdName).mounts = [("/nvs-bench", "nvs-bench")] ∧
       (scriptRun cwdName).recipe = some ⟨baseImageRef, imageSteps cwdName⟩) := by
  constructor
  · intro h
    subst h
    simp [scriptRun]
  · intro h
    simp [scriptRun, h]

/-- Witness for C9 at both a firing and a passing basename. -/
theorem script_guard_witness :
    (scriptRun "nvs-bench").recipe = none ∧
    (scriptRun "LichtFeld-Studio").assertionFailure = none :=
  ⟨((script_guard "nvs-bench").1 rfl).2.2.2,
   ((script_guard "LichtFeld-Studio").2 (by decide)).1⟩

/-- C10: the image working directory is always "/root/" followed by the
invoking basename, VCPKG_ROOT is always the fixed string
"/root/LichtFeld-Studio/vcpkg", and the vcpkg checkout (cloned into the
working directory) sits where VCPKG_ROOT points exactly when the basename
is "LichtFeld-Studio". -/
theorem workdir_vcpkg_invariant (method_name : String) :
    imageWorkdir method_name = "/root/" ++ method_name ∧
    Step.setWorkdir (imageWorkdir method_name) ∈ imageSteps method_name ∧
    Step.setEnv [("VCPKG_ROOT", vcpkgRootValue)] ∈ imageSteps method_name ∧
    vcpkgRootValue = "/root/LichtFeld-Studio/vcpkg" ∧
    (vcpkgClonePath method_name = vcpkgRootValue ↔ method_name = "LichtFeld-Studio") := by
  refine ⟨rfl, ?_, ?_, rfl, ?_⟩
  · simp [imageSteps]
  · simp [imageSteps]
  · constructor
    · intro h
      have h2 : "/root/" ++ method_name ++ "/vcpkg"
          = "/root/" ++ "LichtFeld-Studio" ++ "/vcpkg" := h
      exact wrap_vcpkg_inj method_name "LichtFeld-Studio" h2
    · intro h
      subst h
      rfl

/-- Witness for C10 at the repository basename. -/
theorem workdir_vcpkg_invariant_witness :
    vcpkgClonePath "LichtFeld-Studio" = vcpkgRootValue :=
  (workdir_vcpkg_invariant "LichtFeld-Studio").2.2.2.2.mpr rfl

/-- C1: fingerprinting is a pure deterministic function of the parent
fingerprint and the normalized step content; two recipes sharing a step
prefix are assigned identical fingerprints on the shared prefix; after a
successful run of the first recipe, running the second reuses every
shared-prefix layer (all its executed indices lie past the prefix); and
rerunning the first recipe itself executes zero commands and ends in the
identical final layer fingerprint. -/
theorem prefix_sharing_and_rerun
    (vols : List String) (base : String) (pre t1 t2 : List Step)
    (ctx : Step → StepResult) (plan1 plan2 : List (Step × Fingerprint))
    (h1 : compile vols ⟨base, pre ++ t1⟩ = .ok plan1)
    (h2 : compile vols ⟨base, pre ++ t2⟩ = .ok plan2) :
    (∀ (p : Fingerprint) (s s2 : Step), normStep s = normStep s2 →
       fingerprint p s = fingerprint p s2) ∧
    plan1.take pre.length = plan2.take pre.length ∧
    (∀ F, (runSteps ctx [] (.base base) 0 plan1).result = .ok F →
       (∀ e ∈ plan1.take pre.length,
          lookupLayer (runSteps ctx [] (.base base) 0 plan1).cache e.2 ≠ none) ∧
       (∀ j ∈ (runSteps ctx (runSteps ctx [] (.base base) 0 plan1).cache
                 (.base base) 0 plan2).executed, pre.length ≤ j) ∧
       (runSteps ctx (runSteps ctx [] (.base base) 0 plan1).cache
          (.base base) 0 plan1).executed = [] ∧
       (runSteps ctx (runSteps ctx [] (.base base) 0 plan1).cache
          (.base base) 0 plan1).result = .ok F) := by
  obtain ⟨hv1, hp1⟩ := compile_ok_inv h1
  obtain ⟨hv2, hp2⟩ := compile_ok_inv h2
  have htake : plan1.take pre.length = plan2.take pre.length := by
    rw [hp1, hp2]
    have hl : (fingerprintSteps (Fingerprint.base base) pre).length = pre.length :=
      fingerprintSteps_length _ _
    rw [fingerprintSteps_append, fingerprintSteps_append]
    conv_lhs => rw [← hl, List.take_left]
    conv_rhs => rw [← hl, List.take_left]
  refine ⟨?_, htake, ?_⟩
  · intro p s s2 hn
    simp [fingerprint, hn]
  · intro F hF
    have hall : ∀ e ∈ plan1,
        lookupLayer (runSteps ctx [] (.base base) 0 plan1).cache e.2 ≠ none :=
      runSteps_ok_all_cached ctx plan1 [] (.base base) 0 F hF
    refine ⟨fun e he => hall e (List.mem_of_mem_take he), ?_, ?_, ?_⟩
    · intro j hj
      have hsplit : plan2 = plan2.take pre.length ++ plan2.drop pre.length :=
        (List.take_append_drop _ _).symm
      rw [hsplit] at hj
      have hhits : ∀ e ∈ plan2.take pre.length,
          lookupLayer (runSteps ctx [] (.base base) 0 plan1).cache e.2 ≠ none := by
        intro e he
        rw [← htake] at he
        exact hall e (List.mem_of_mem_take he)
      have hskip := runSteps_skips_cached ctx (plan2.take pre.length)
        (plan2.drop pre.length) (runSteps ctx [] (.base base) 0 plan1).cache
        (.base base) 0 hhits j hj
      have hlen2 : pre.length ≤ plan2.length := by
        rw [hp2, fingerprintSteps_length]
        simp
      have hlt : (plan2.take pre.length).length = pre.length := by
        rw [List.length_take]
        omega
      omega
    · exact (runSteps_all_cached_noop ctx plan1 _ (.base base) 0 hall).2.1
    · have hnoop := (runSteps_all_cached_noop ctx plan1 _ (.base base) 0 hall).2.2
      rw [hnoop, runSteps_ok_value ctx plan1 [] (.base base) 0 F hF]

/-- Witness for C1: the end-to-end scenario recipe, run twice, executes
nothing on the second run. -/
theorem prefix_sharing_and_rerun_witness :
    (runSteps exCtxOk (runSteps exCtxOk [] (.base "img") 0 exPlan).cache
       (.base "img") 0 exPlan).executed = [] :=
  ((prefix_sharing_and_rerun [] "img" exSteps [] [] exCtxOk exPlan exPlan rfl rfl).2.2
    (lastFp (.base "img") exPlan) rfl).2.2.1

/-- C2: when executing step k of a compiled plan fails, the run aborts
the remainder (no executed index exceeds k), commits no layer for step k,
reports the failing index and step (also through the whole-build error),
leaves every layer committed for steps before k retrievable from the
cache, and a retry against that cache re-executes nothing before k. -/
theorem execution_failure_isolation
    (vols : List String) (ctx : Step → StepResult) (r : BuildRecipe)
    (plan : List (Step × Fingerprint)) (k : Nat) (s : Step)
    (hc : compile vols r = .ok plan)
    (hres : (runSteps ctx [] (.base r.baseImage) 0 plan).result = .error (k, s)) :
    (∃ f, plan[k]? = some (s, f) ∧
       lookupLayer (runSteps ctx [] (.base r.baseImage) 0 plan).cache f = none) ∧
    (∀ e ∈ plan.take k,
       lookupLayer (runSteps ctx [] (.base r.baseImage) 0 plan).cache e.2 ≠ none) ∧
    (∀ j ∈ (runSteps ctx [] (.base r.baseImage) 0 plan).executed, j ≤ k) ∧
    (∀ j ∈ (runSteps ctx (runSteps ctx [] (.base r.baseImage) 0 plan).cache
              (.base r.baseImage) 0 plan).executed, k ≤ j) ∧
    (build vols ctx r).result = .error (.execution k s) := by
  obtain ⟨hik, hlen, ⟨f, hget, hnone, hfl⟩, htake, hexec⟩ :=
    runSteps_error_facts ctx plan [] (.base r.baseImage) 0 k s hres
  have htake0 : ∀ e ∈ plan.take k,
      lookupLayer (runSteps ctx [] (.base r.baseImage) 0 plan).cache e.2 ≠ none := by
    intro e he
    apply htake
    simpa using he
  refine ⟨⟨f, by simpa using hget, hnone⟩, htake0, hexec, ?_, ?_⟩
  · intro j hj
    have hsplit : plan = plan.take k ++ plan.drop k := (List.take_append_drop _ _).symm
    nth_rewrite 2 [hsplit] at hj
    have hskip := runSteps_skips_cached ctx (plan.take k) (plan.drop k)
      (runSteps ctx [] (.base r.baseImage) 0 plan).cache (.base r.baseImage) 0 htake0 j hj
    have hkl : k < plan.length := by simpa using hlen
    have hlt : (plan.take k).length = k := by
      rw [List.length_take]
      omega
    omega
  · rw [build_ok_eq hc]
    simp [hres, Except.mapError]

/-- Witness for C2: in the scenario recipe with a context that fails the
command "touch f", the build reports failing index 3 with that command. -/
theorem execution_failure_isolation_witness :
    (build [] exCtxFail exRecipe).result
      = .error (.execution 3 (Step.runCommand "touch f" none none)) :=
  (execution_failure_isolation [] exCtxFail exRecipe exPlan 3
    (Step.runCommand "touch f" none none) rfl rfl).2.2.2.2

/-- C4 counterexample: a recipe whose two RunCommand steps are the same
command: swapping the steps at positions 0 and 1 (empty prefix, empty
middle, empty tail) yields the very same step list, so compilation
assigns an unchanged fingerprint at the first swapped position 0 even
though the plan is non-empty there — the claim quantified over all
recipes with two RunCommand steps fails. -/
theorem swap_commands_counterexample :
    ((fingerprintSteps (Fingerprint.base "img")
        ([] ++ Step.runCommand "x" none none
          :: ([] ++ Step.runCommand "x" none none :: []))).map (fun e => e.2))[0]?
      = ((fingerprintSteps (Fingerprint.base "img")
          ([] ++ Step.runCommand "x" none none
            :: ([] ++ Step.runCommand "x" none none :: []))).map (fun e => e.2))[0]? ∧
    0 < (fingerprintSteps (Fingerprint.base "img")
        ([] ++ Step.runCommand "x" none none
          :: ([] ++ Step.runCommand "x" none none :: []))).length :=
  ⟨rfl, by decide⟩

/-- C4 (amended): swapping two distinct RunCommand steps of a recipe
changes the fingerprint assigned by compile to every step from the first
swapped position onward, because command steps are hashed with their
exact string plus declared resource requirement (and override), and every
later fingerprint chains the changed parent. -/
theorem swap_distinct_commands_changes_fingerprints
    (vols : List String) (base : String) (pre mid post : List Step)
    (c1 c2 : String) (r1 r2 w1 w2 : Option String)
    (plan1 plan2 : List (Step × Fingerprint))
    (hne : Step.runCommand c1 r1 w1 ≠ Step.runCommand c2 r2 w2)
    (h1 : compile vols
      ⟨base, pre ++ Step.runCommand c1 r1 w1 :: (mid ++ Step.runCommand c2 r2 w2 :: post)⟩
        = .ok plan1)
    (h2 : compile vols
      ⟨base, pre ++ Step.runCommand c2 r2 w2 :: (mid ++ Step.runCommand c1 r1 w1 :: post)⟩
        = .ok plan2) :
    ∀ m, pre.length ≤ m → m < plan1.length →
      (plan1.map (fun e => e.2))[m]? ≠ (plan2.map (fun e => e.2))[m]? := by
  obtain ⟨hv1, hp1⟩ := compile_ok_inv h1
  obtain ⟨hv2, hp2⟩ := compile_ok_inv h2
  subst hp1
  subst hp2
  intro m hm hmlt
  dsimp only at hmlt ⊢
  rw [fingerprintSteps_length] at hmlt
  rw [fingerprintSteps_map_snd, fingerprintSteps_map_snd, fpList_append, fpList_append]
  have hlpre : (fpList (Fingerprint.base base) pre).length = pre.length :=
    fpList_length _ _
  rw [List.getElem?_append_right (by omega), List.getElem?_append_right (by omega)]
  simp only [hlpre]
  have hfpne : fingerprint (chainFp (Fingerprint.base base) pre) (Step.runCommand c1 r1 w1)
      ≠ fingerprint (chainFp (Fingerprint.base base) pre) (Step.runCommand c2 r2 w2) := by
    intro hh
    apply hne
    simp [fingerprint, normStep] at hh
    obtain ⟨hcx, hrx, hwx⟩ := hh
    rw [hcx, hrx, hwx]
  have hlen : (mid ++ Step.runCommand c2 r2 w2 :: post).length
      = (mid ++ Step.runCommand c1 r1 w1 :: post).length := by simp
  apply fpList_ne_of_head_ne _ _ _ _ _ hlen hfpne (m - pre.length)
  simp only [List.length_append, List.length_cons] at hmlt ⊢
  omega

/-- Witness for the amended C4 on a two-command recipe with distinct
commands, at the first swapped position. -/
theorem swap_distinct_commands_witness :
    ((fingerprintSteps (Fingerprint.base "img")
        [Step.runCommand "a" none none, Step.runCommand "b" none none]).map
      (fun e => e.2))[0]?
      ≠ ((fingerprintSteps (Fingerprint.base "img")
          [Step.runCommand "b" none none, Step.runCommand "a" none none]).map
        (fun e => e.2))[0]? := by
  have h := swap_distinct_commands_changes_fingerprints [] "img" [] [] []
    "a" "b" none none none none
    (fingerprintSteps (.base "img")
      [Step.runCommand "a" none none, Step.runCommand "b" none none])
    (fingerprintSteps (.base "img")
      [Step.runCommand "b" none none, Step.runCommand "a" none none])
    (by decide) rfl rfl
  exact h 0 (by decide) (by decide)

/-- C7: along any legal interleaving of cache actions from the initial
state, each fingerprint is materialized (committed) at most once; a claim
is acquired only on a free slot (first writer wins); a builder meeting a
slot claimed by another builder can only wait, which changes no state
(contention is resolved by waiting, never by rebuilding); and reuse is
possible only on a committed slot and returns the state unchanged. -/
theorem concurrent_commit_serialization :
    (∀ (acts : List CAct) (st2 : CacheSt), crun [] acts = some st2 →
       ∀ f, buildCount acts f ≤ 1) ∧
    (∀ (st : CacheSt) (b : Nat) (f : Fingerprint) (st2 : CacheSt),
       cstep st (.acquire b f) = some st2 → slotOf st f = .free) ∧
    (∀ (st : CacheSt) (b : Nat) (f : Fingerprint) (st2 : CacheSt),
       cstep st (.wait b f) = some st2 →
       st2 = st ∧ ∃ c, slotOf st f = .claimed c ∧ c ≠ b) ∧
    (∀ (st : CacheSt) (b : Nat) (f : Fingerprint) (st2 : CacheSt),
       cstep st (.reuse b f) = some st2 →
       st2 = st ∧ ∃ lid, slotOf st f = .committed lid) := by
  refine ⟨?_, ?_, ?_, ?_⟩
  · intro acts st2 hrun f
    have h := crun_buildCount_le acts [] st2 hrun f
    simpa [slotOf, slotBudget] using h
  · intro st b f st2 hstep
    simp only [cstep] at hstep
    cases hslot : slotOf st f with
    | free => rfl
    | claimed c => rw [hslot] at hstep; exact Option.noConfusion hstep
    | committed lid => rw [hslot] at hstep; exact Option.noConfusion hstep
  · intro st b f st2 hstep
    simp only [cstep] at hstep
    cases hslot : slotOf st f with
    | free => rw [hslot] at hstep; exact Option.noConfusion hstep
    | committed lid => rw [hslot] at hstep; exact Option.noConfusion hstep
    | claimed c =>
      rw [hslot] at hstep
      by_cases hcb : c = b
      · simp [hcb] at hstep
      · simp [hcb] at hstep
        exact ⟨hstep.symm, c, rfl, hcb⟩
  · intro st b f st2 hstep
    simp only [cstep] at hstep
    cases hslot : slotOf st f with
    | free => rw [hslot] at hstep; exact Option.noConfusion hstep
    | claimed c => rw [hslot] at hstep; exact Option.noConfusion hstep
    | committed lid =>
      rw [hslot] at hstep
      simp at hstep
      exact ⟨hstep.symm, lid, rfl⟩

/-- Witness for C7: builder 0 acquires and commits a fingerprint while
builder 1 waits out the contention and then reuses; the trace is legal
and the layer is materialized at most once. -/
theorem concurrent_commit_serialization_witness :
    buildCount [CAct.acquire 0 (Fingerprint.base "img"),
      CAct.wait 1 (Fingerprint.base "img"),
      CAct.commitLayer 0 (Fingerprint.base "img") 1,
      CAct.reuse 1 (Fingerprint.base "img")] (Fingerprint.base "img") ≤ 1 :=
  concurrent_commit_serialization.1
    [CAct.acquire 0 (Fingerprint.base "img"),
      CAct.wait 1 (Fingerprint.base "img"),
      CAct.commitLayer 0 (Fingerprint.base "img") 1,
      CAct.reuse 1 (Fingerprint.base "img")]
    [(Fingerprint.base "img", SlotState.committed 1)] rfl (Fingerprint.base "img")

/-- C8 counterexample: a non-empty recipe with no mount declaration at
all, whose only step is a RunCommand with an empty command string, still
moves Compiling to Failed: the static error behind the transition is the
malformed step, not an empty recipe or a bad mount reference. -/
theorem build_state_machine_counterexample :
    (build [] exCtxOk ⟨"img", [Step.runCommand "" none none]⟩).trace
        = [BuildState.pending, BuildState.compiling, BuildState.failedCompile] ∧
    validate [] ⟨"img", [Step.runCommand "" none none]⟩
        = some ValidationError.emptyCommand ∧
    ([Step.runCommand "" none none] : List Step) ≠ [] ∧
    (([Step.runCommand "" none none] : List Step).all
      (fun s => match s with
                | Step.declareMount _ _ => false
                | _ => true)) = true :=
  ⟨rfl, rfl, by decide, rfl⟩

/-- C8 (amended): a build only moves along
Pending - Compiling - Executing(i) - Executing(i+1) / Failed(i) /
Succeeded; Compiling moves to Failed exactly when validation yields a
static recipe error (an empty recipe, a bad mount reference, or a
malformed step such as an empty command); Executing(i) moves to Failed(i)
only on a non-zero exit or an unavailable resource; and Succeeded and the
Failed states are terminal: they only ever sit at the end of the trace. -/
theorem build_state_machine (vols : List String) (ctx : Step → StepResult) (r : BuildRecipe) :
    List.Chain' allowedEdge (build vols ctx r).trace ∧
    (BuildState.failedCompile ∈ (build vols ctx r).trace ↔ ∃ e, validate vols r = some e) ∧
    (∀ k, BuildState.failedExec k ∈ (build vols ctx r).trace →
       ∃ s, (build vols ctx r).result = .error (.execution k s) ∧
         ((∃ code, ctx s = .nonZeroExit code) ∨ ctx s = .resourceUnavailable)) ∧
    (∀ m st, (build vols ctx r).trace[m]? = some st → isTerminal st = true →
       m + 1 = (build vols ctx r).trace.length) := by
  cases hc : compile vols r with
  | error e =>
    have htr : (build vols ctx r).trace
        = [.pending, .compiling, .failedCompile] := by rw [build_error_eq hc]
    have hrs : (build vols ctx r).result = .error (.validation e) := by
      rw [build_error_eq hc]
    refine ⟨?_, ?_, ?_, ?_⟩
    · rw [htr]
      simp [List.chain'_cons, allowedEdge]
    · rw [htr]
      constructor
      · intro _
        exact ⟨e, compile_error_inv hc⟩
      · intro _
        simp
    · intro k hk
      rw [htr] at hk
      simp at hk
    · intro m st hm hterm
      rw [htr] at hm ⊢
      cases m with
      | zero =>
        simp at hm
        subst hm
        simp [isTerminal] at hterm
      | succ m1 =>
        cases m1 with
        | zero =>
          simp at hm
          subst hm
          simp [isTerminal] at hterm
        | succ m2 =>
          cases m2 with
          | zero => rfl
          | succ m3 => simp at hm
  | ok plan =>
    obtain ⟨hv, hp⟩ := compile_ok_inv hc
    have hplan_ne : plan ≠ [] := by
      intro hnil
      apply validate_none_nonempty hv
      have hlen := fingerprintSteps_length (Fingerprint.base r.baseImage) r.steps
      rw [← hp, hnil] at hlen
      exact List.length_eq_zero.mp hlen.symm
    have htr : (build vols ctx r).trace
        = .pending :: .compiling :: (runSteps ctx [] (.base r.baseImage) 0 plan).trace := by
      rw [build_ok_eq hc]
    have hrs : (build vols ctx r).result
        = (runSteps ctx [] (.base r.baseImage) 0 plan).result.mapError
            (fun p => .execution p.1 p.2) := by
      rw [build_ok_eq hc]
    refine ⟨?_, ?_, ?_, ?_⟩
    · rw [htr]
      refine List.chain'_cons.mpr ⟨by simp [allowedEdge], ?_⟩
      refine List.chain'_cons'.mpr ⟨?_, runSteps_trace_chain ctx plan [] (.base r.baseImage) 0⟩
      intro y hy
      rw [runSteps_trace_head ctx plan [] (.base r.baseImage) 0] at hy
      obtain ⟨e0, rest0, rfl⟩ : ∃ e0 rest0, plan = e0 :: rest0 := by
        cases plan with
        | nil => exact absurd rfl hplan_ne
        | cons a b => exact ⟨a, b, rfl⟩
      cases hy
      simp [allowedEdge]
    · rw [htr]
      constructor
      · intro hmem
        simp only [List.mem_cons] at hmem
        rcases hmem with h0 | h0 | h0
        · exact absurd h0 (by simp)
        · exact absurd h0 (by simp)
        · exact absurd h0 (runSteps_no_failedCompile ctx plan [] (.base r.baseImage) 0)
      · rintro ⟨e, he⟩
        rw [hv] at he
        exact Option.noConfusion he
    · intro k hk
      rw [htr] at hk
      simp only [List.mem_cons] at hk
      rcases hk with h0 | h0 | h0
      · exact absurd h0 (by simp)
      · exact absurd h0 (by simp)
      · obtain ⟨s, hres, hfl⟩ :=
          runSteps_failedExec_mem ctx plan [] (.base r.baseImage) 0 k h0
        refine ⟨s, ?_, ?_⟩
        · rw [hrs, hres]
          rfl
        · cases hcc : ctx s with
          | success d => rw [hcc] at hfl; simp [failing] at hfl
          | nonZeroExit code => exact Or.inl ⟨code, rfl⟩
          | resourceUnavailable => exact Or.inr rfl
    · intro m st hm hterm
      rw [htr] at hm ⊢
      cases m with
      | zero =>
        simp at hm
        subst hm
        simp [isTerminal] at hterm
      | succ m1 =>
        cases m1 with
        | zero =>
          simp at hm
          subst hm
          simp [isTerminal] at hterm
        | succ m2 =>
          rw [List.getElem?_cons_succ, List.getElem?_cons_succ] at hm
          have := runSteps_terminal_last ctx plan [] (.base r.baseImage) 0 m2 st hm hterm
          simp only [List.length_cons]
          omega

/-- Witness for C8: the whole trace of the scenario build moves only
along the allowed transitions. -/
theorem build_state_machine_witness :
    List.Chain' allowedEdge (build [] exCtxOk exRecipe).trace :=
  (build_state_machine [] exCtxOk exRecipe).1
